import Mathlib

set_option maxRecDepth 4000

/-! Shallow embedding of `src/kvparser.rs`: a parser for Debian-control-style
"Key: Value" block files.  File content is a list of bytes (`List Nat`);
decoded text is a list of characters.  The scanner, the per-chunk line
folding, the field extraction and the worker orchestration are each
translated function-by-function from the Rust source. -/

/-- A field mapping, modelling the Rust `HashMap<String, String>` built by
`ChunkWorker::parse_fields`: an association list from key characters to value
characters.  `insertKV` keeps keys unique (insert overwrites). -/
abbrev FieldMap := List (List Char × List Char)

/-- Unicode `White_Space` code points, as matched by Rust's
`char::is_whitespace`, which `str::trim` uses. -/
def rustIsWhitespace (c : Char) : Bool :=
  c.toNat = 0x9 || c.toNat = 0xA || c.toNat = 0xB || c.toNat = 0xC ||
  c.toNat = 0xD || c.toNat = 0x20 || c.toNat = 0x85 || c.toNat = 0xA0 ||
  c.toNat = 0x1680 || (decide (0x2000 ≤ c.toNat) && decide (c.toNat ≤ 0x200A)) ||
  c.toNat = 0x2028 || c.toNat = 0x2029 || c.toNat = 0x202F ||
  c.toNat = 0x205F || c.toNat = 0x3000

/-- Rust `str::trim`: remove leading and trailing whitespace characters. -/
def trimChars (l : List Char) : List Char :=
  ((l.dropWhile rustIsWhitespace).reverse.dropWhile rustIsWhitespace).reverse

/-- A UTF-8 continuation byte, `0x80 ..= 0xBF`. -/
def utf8Cont (b : Nat) : Bool :=
  decide (0x80 ≤ b) && decide (b < 0xC0)

/-- Strict UTF-8 decoding of a byte sequence, with the validity rules of
Rust's `String::from_utf8` (rejecting overlong forms, surrogates and code
points above `U+10FFFF`).  `none` models the `Err` that
`ChunkWorker::parse_chunk` meets when it unwraps a line read from bytes that
are not valid UTF-8. -/
def utf8Decode : List Nat → Option (List Char)
  | [] => some []
  | b :: rest =>
    if b < 0x80 then
      (utf8Decode rest).map (fun cs => Char.ofNat b :: cs)
    else if b < 0xC2 then none
    else if b < 0xE0 then
      match rest with
      | [] => none
      | c1 :: rest2 =>
        if utf8Cont c1 then
          (utf8Decode rest2).map (fun cs => Char.ofNat ((b - 0xC0) * 0x40 + (c1 - 0x80)) :: cs)
        else none
    else if b < 0xF0 then
      match rest with
      | c1 :: c2 :: rest2 =>
        if utf8Cont c1 && utf8Cont c2 &&
            decide (0x800 ≤ (b - 0xE0) * 0x1000 + (c1 - 0x80) * 0x40 + (c2 - 0x80)) &&
            !(decide (0xD800 ≤ (b - 0xE0) * 0x1000 + (c1 - 0x80) * 0x40 + (c2 - 0x80)) &&
              decide ((b - 0xE0) * 0x1000 + (c1 - 0x80) * 0x40 + (c2 - 0x80) < 0xE000)) then
          (utf8Decode rest2).map
            (fun cs => Char.ofNat ((b - 0xE0) * 0x1000 + (c1 - 0x80) * 0x40 + (c2 - 0x80)) :: cs)
        else none
      | _ => none
    else if b < 0xF5 then
      match rest with
      | c1 :: c2 :: c3 :: rest2 =>
        if utf8Cont c1 && utf8Cont c2 && utf8Cont c3 &&
            decide (0x10000 ≤ (b - 0xF0) * 0x40000 + (c1 - 0x80) * 0x1000 + (c2 - 0x80) * 0x40 + (c3 - 0x80)) &&
            decide ((b - 0xF0) * 0x40000 + (c1 - 0x80) * 0x1000 + (c2 - 0x80) * 0x40 + (c3 - 0x80) < 0x110000) then
          (utf8Decode rest2).map
            (fun cs => Char.ofNat ((b - 0xF0) * 0x40000 + (c1 - 0x80) * 0x1000 + (c2 - 0x80) * 0x40 + (c3 - 0x80)) :: cs)
        else none
      | _ => none
    else none

/-- Strip one trailing carriage-return byte, as `BufRead::lines` does after
removing the line feed. -/
def stripCR (l : List Nat) : List Nat :=
  match l.getLast? with
  | some 13 => l.dropLast
  | _ => l

/-- Helper for `rustLines`; `acc` holds the bytes of the current line in
reverse order. -/
def rustLinesAux (acc : List Nat) : List Nat → List (List Nat)
  | [] => if acc.isEmpty then [] else [acc.reverse]
  | b :: rest =>
    if b = 10 then stripCR acc.reverse :: rustLinesAux [] rest
    else rustLinesAux (b :: acc) rest

/-- Rust `BufRead::lines` over a byte slice: split at each line-feed byte,
dropping the line feed and a carriage return just before it; a final segment
without a terminating line feed is kept as a line, and a trailing line feed
produces no extra empty line. -/
def rustLines (bs : List Nat) : List (List Nat) :=
  rustLinesAux [] bs

/-- `unwrapped_line.starts_with(" ")` from `ChunkWorker::parse_chunk`: the
code tests for a single leading space character only. -/
def startsWithSpace (l : List Char) : Bool :=
  match l with
  | c :: _ => c == ' '
  | [] => false

/-- One iteration of the loop body of `ChunkWorker::parse_chunk`: skip empty
lines; fold a space-initial line into the previous logical line with an
embedded line break when one exists; otherwise push a new logical line. -/
def foldStep (fields : List (List Char)) (line : List Char) : List (List Char) :=
  if line.isEmpty then fields
  else if startsWithSpace line && !fields.isEmpty then
    fields.dropLast ++ [fields.getLast?.getD [] ++ ('\n' :: line)]
  else fields ++ [line]

/-- `ChunkWorker::parse_chunk`: iterate the chunk's lines, unwrapping each
line result (so any line whose bytes are not valid UTF-8 gives `none`,
modelling the panic) and folding continuation lines. -/
def parse_chunk (chunk : List Nat) : Option (List (List Char)) :=
  (rustLines chunk).foldlM
    (fun fields line => (utf8Decode line).map (foldStep fields)) []

/-- `field.find(':')`: index of the first colon character, if any. -/
def firstColon : List Char → Option Nat
  | [] => none
  | c :: rest => if c == ':' then some 0 else (firstColon rest).map (fun i => i + 1)

/-- `HashMap::insert`: record `k ↦ v`, overwriting any existing entry for
`k`. -/
def insertKV (m : FieldMap) (k v : List Char) : FieldMap :=
  m.filter (fun p => p.1 != k) ++ [(k, v)]

/-- One iteration of the loop body of `ChunkWorker::parse_fields`: a line
without a delimiter is skipped; otherwise the line is split at the first
colon, the value keeps everything from the delimiter on with its leading
colons removed by `trim_start_matches`, and both sides are trimmed. -/
def fieldStep (m : FieldMap) (field : List Char) : FieldMap :=
  match firstColon field with
  | none => m
  | some i =>
    insertKV m (trimChars (field.take i))
      (trimChars ((field.drop i).dropWhile (fun c => c == ':')))

/-- `ChunkWorker::parse_fields`: fold every logical line into the map. -/
def parse_fields (fields : List (List Char)) : FieldMap :=
  fields.foldl fieldStep []

/-- The mutable state of the byte scan loop in `Parser::parse`. -/
structure ScanState where
  last_is_nl : Bool
  last_nl_pos : Nat
  cur_position : Nat
  tasks : List (Nat × Nat)
deriving DecidableEq

/-- One iteration of the scan loop of `Parser::parse`: advance the position,
and when a line feed follows a line feed (the source writes the test as
`byte ^ b'\n' == 0`) push a `Process(last_nl_pos, cur_position)` task and
remember the boundary. -/
def scanStep (st : ScanState) (byte : Nat) : ScanState :=
  let cur := st.cur_position + 1
  let nl := byte = 10
  if nl && st.last_is_nl then
    { last_is_nl := nl, last_nl_pos := cur, cur_position := cur,
      tasks := st.tasks ++ [(st.last_nl_pos, cur)] }
  else
    { st with last_is_nl := nl, cur_position := cur }

/-- The sequence of `Process(start, end)` tasks pushed by the scan loop of
`Parser::parse`, in push order.  The loop starts with `last_is_nl = true`
and `last_nl_pos = cur_position = 0`, and nothing is pushed after the loop. -/
def scanChunks (content : List Nat) : List (Nat × Nat) :=
  (content.foldl scanStep
    { last_is_nl := true, last_nl_pos := 0, cur_position := 0, tasks := [] }).tasks

/-- `&self.file[start..end]`: the byte slice a worker reads for a task. -/
def chunkSlice (content : List Nat) (t : Nat × Nat) : List Nat :=
  (content.drop t.1).take (t.2 - t.1)

/-- What one `Process` task produces in `ChunkWorker::run`: `none` when the
chunk panics on invalid UTF-8; otherwise the Output Factory's verdict
(`P::new`, modelled as `F`) on the parsed fields. -/
def taskResult {α : Type} (content : List Nat) (F : FieldMap → Option α)
    (t : Nat × Nat) : Option (Option α) :=
  (parse_chunk (chunkSlice content t)).map (fun fields => F (parse_fields fields))

/-- `ChunkWorker::run` on the list of tasks this worker steals, in order:
accumulate every accepted model; a panic anywhere gives `none`. -/
def runWorker {α : Type} (content : List Nat) (F : FieldMap → Option α)
    (tasks : List (Nat × Nat)) : Option (List α) :=
  tasks.foldlM
    (fun acc t =>
      (taskResult content F t).map
        (fun r =>
          match r with
          | some model => acc ++ [model]
          | none => acc)) []

/-- `Parser::parse` with the task list processed sequentially (the
single-worker schedule); `mergedParse` below covers arbitrary schedules. -/
def Parser.parse {α : Type} (content : List Nat) (F : FieldMap → Option α) :
    Option (List α) :=
  runWorker content F (scanChunks content)

/-- The end of `Parser::parse`: join every worker and extend the model list
with each worker's results in join order.  `assignment` lists, per worker,
the `Process` tasks that worker stole.  A panicked worker makes the whole
call abort (`none`), as `worker.join().unwrap()` does. -/
def mergedParse {α : Type} (content : List Nat) (F : FieldMap → Option α)
    (assignment : List (List (Nat × Nat))) : Option (List α) :=
  assignment.foldlM
    (fun acc tasks => (runWorker content F tasks).map (fun r => acc ++ r)) []

/-- The construction failures of `Parser::new`. -/
inductive NewError where
  | OpenError
  | EmptyFileError
deriving DecidableEq

/-- `Parser::new`: `File::open`'s outcome is the `openResult` argument
(`none` when the path cannot be opened or its metadata read); an opened file
of zero length is rejected, any other open file is accepted unchanged. -/
def Parser.new (openResult : Option (List Nat)) : Except NewError (List Nat) :=
  match openResult with
  | none => Except.error NewError.OpenError
  | some content =>
    if content.length = 0 then Except.error NewError.EmptyFileError
    else Except.ok content

/-- Byte encoding of an ASCII test input. -/
def asciiBytes (s : String) : List Nat :=
  s.toList.map Char.toNat

/-- The model a `Process` task contributes to its worker's list: the accepted
Output, if the chunk parses and the factory accepts. -/
def taskModel {α : Type} (content : List Nat) (F : FieldMap → Option α)
    (t : Nat × Nat) : Option α :=
  match taskResult content F t with
  | some (some model) => some model
  | _ => none

lemma nodup_keys_insertKV (m : FieldMap) (k v : List Char)
    (h : (m.map Prod.fst).Nodup) : ((insertKV m k v).map Prod.fst).Nodup := by
  unfold insertKV
  rw [List.map_append, List.nodup_append]
  refine ⟨h.sublist ((List.filter_sublist m).map Prod.fst), by simp, ?_⟩
  intro a ha hb
  simp only [List.map_cons, List.map_nil, List.mem_singleton] at hb
  subst hb
  obtain ⟨p, hp, hfst⟩ := List.mem_map.mp ha
  obtain ⟨-, hpred⟩ := List.mem_filter.mp hp
  exact absurd hfst (bne_iff_ne.mp hpred)

lemma nodup_keys_fieldStep (m : FieldMap) (field : List Char)
    (h : (m.map Prod.fst).Nodup) : ((fieldStep m field).map Prod.fst).Nodup := by
  unfold fieldStep
  cases firstColon field with
  | none => exact h
  | some i => exact nodup_keys_insertKV m _ _ h

lemma nodup_keys_foldl :
    ∀ (fields : List (List Char)) (m : FieldMap), (m.map Prod.fst).Nodup →
      ((fields.foldl fieldStep m).map Prod.fst).Nodup := by
  intro fields
  induction fields with
  | nil => intro m h; simpa using h
  | cons l ls ih =>
    intro m h
    simpa [List.foldl_cons] using ih (fieldStep m l) (nodup_keys_fieldStep m l h)

lemma firstColon_first :
    ∀ (l : List Char) (i : Nat), firstColon l = some i →
      l.get? i = some ':' ∧ ∀ j : Nat, j < i → l.get? j ≠ some ':' := by
  intro l
  induction l with
  | nil => intro i h; simp [firstColon] at h
  | cons c rest ih =>
    intro i h
    by_cases hc : c = ':'
    · subst hc
      simp [firstColon] at h
      subst h
      exact ⟨rfl, fun j hj => absurd hj (Nat.not_lt_zero j)⟩
    · have hcb : (c == ':') = false := beq_eq_false_iff_ne.mpr hc
      simp only [firstColon, hcb, if_neg Bool.false_ne_true, Option.map_eq_some'] at h
      obtain ⟨i0, h0, rfl⟩ := h
      obtain ⟨h1, h2⟩ := ih i0 h0
      refine ⟨by simpa using h1, ?_⟩
      intro j hj
      cases j with
      | zero => simpa using hc
      | succ j0 =>
        have : j0 < i0 := Nat.lt_of_succ_lt_succ hj
        simpa using h2 j0 this

lemma runWorker_foldlM_ok {α : Type} (content : List Nat) (F : FieldMap → Option α) :
    ∀ (tasks : List (Nat × Nat)) (acc : List α),
      (∀ t ∈ tasks, taskResult content F t ≠ none) →
      tasks.foldlM
          (fun acc t =>
            (taskResult content F t).map
              (fun r =>
                match r with
                | some model => acc ++ [model]
                | none => acc)) acc
        = some (acc ++ tasks.filterMap (taskModel content F)) := by
  intro tasks
  induction tasks with
  | nil => intro acc h; simp [List.foldlM_nil]
  | cons t ts ih =>
    intro acc h
    have ht : taskResult content F t ≠ none := h t (List.mem_cons_self t ts)
    obtain ⟨r, hr⟩ := Option.ne_none_iff_exists.mp ht
    have hts : ∀ u ∈ ts, taskResult content F u ≠ none :=
      fun u hu => h u (List.mem_cons_of_mem t hu)
    rw [List.foldlM_cons, ← hr]
    cases r with
    | some model =>
      have hmodel : taskModel content F t = some model := by
        unfold taskModel; rw [← hr]
      simp [List.filterMap_cons, hmodel, ih (acc ++ [model]) hts]
    | none =>
      have hmodel : taskModel content F t = none := by
        unfold taskModel; rw [← hr]
      simp [List.filterMap_cons, hmodel, ih acc hts]

lemma runWorker_eq_filterMap {α : Type} (content : List Nat) (F : FieldMap → Option α)
    (tasks : List (Nat × Nat)) (h : ∀ t ∈ tasks, taskResult content F t ≠ none) :
    runWorker content F tasks = some (tasks.filterMap (taskModel content F)) := by
  simpa [runWorker] using runWorker_foldlM_ok content F tasks [] h

lemma mergedParse_foldlM_ok {α : Type} (content : List Nat) (F : FieldMap → Option α) :
    ∀ (assignment : List (List (Nat × Nat))) (acc : List α),
      (∀ tasks ∈ assignment, ∀ t ∈ tasks, taskResult content F t ≠ none) →
      assignment.foldlM
          (fun acc tasks => (runWorker content F tasks).map (fun r => acc ++ r)) acc
        = some (acc ++ assignment.flatten.filterMap (taskModel content F)) := by
  intro assignment
  induction assignment with
  | nil => intro acc h; simp [List.foldlM_nil]
  | cons tasks rest ih =>
    intro acc h
    have h1 : ∀ t ∈ tasks, taskResult content F t ≠ none :=
      h tasks (List.mem_cons_self tasks rest)
    have h2 : ∀ ts ∈ rest, ∀ t ∈ ts, taskResult content F t ≠ none :=
      fun ts hts => h ts (List.mem_cons_of_mem tasks hts)
    rw [List.foldlM_cons, runWorker_eq_filterMap content F tasks h1]
    simp [ih (acc ++ tasks.filterMap (taskModel content F)) h2, List.flatten_cons,
      List.filterMap_append]

lemma mergedParse_eq_filterMap {α : Type} (content : List Nat) (F : FieldMap → Option α)
    (assignment : List (List (Nat × Nat)))
    (h : ∀ tasks ∈ assignment, ∀ t ∈ tasks, taskResult content F t ≠ none) :
    mergedParse content F assignment =
      some (assignment.flatten.filterMap (taskModel content F)) := by
  simpa [mergedParse] using mergedParse_foldlM_ok content F assignment [] h

lemma chunkFold_all_some :
    ∀ (lines : List (List Nat)) (acc : List (List Char)),
      (∀ l ∈ lines, utf8Decode l ≠ none) →
      ∃ r, lines.foldlM (fun fields line => (utf8Decode line).map (foldStep fields)) acc
        = some r := by
  intro lines
  induction lines with
  | nil => intro acc h; exact ⟨acc, by simp [List.foldlM_nil]⟩
  | cons l ls ih =>
    intro acc h
    have hl : utf8Decode l ≠ none := h l (List.mem_cons_self l ls)
    obtain ⟨cs, hcs⟩ := Option.ne_none_iff_exists.mp hl
    have hls : ∀ u ∈ ls, utf8Decode u ≠ none :=
      fun u hu => h u (List.mem_cons_of_mem l hu)
    obtain ⟨r, hr⟩ := ih (foldStep acc cs) hls
    exact ⟨r, by rw [List.foldlM_cons, ← hcs]; simpa using hr⟩

lemma chunkFold_exists_none :
    ∀ (lines : List (List Nat)) (acc : List (List Char)),
      (∃ l ∈ lines, utf8Decode l = none) →
      lines.foldlM (fun fields line => (utf8Decode line).map (foldStep fields)) acc
        = none := by
  intro lines
  induction lines with
  | nil => intro acc h; simp at h
  | cons l ls ih =>
    intro acc h
    rw [List.foldlM_cons]
    cases hdec : utf8Decode l with
    | none => simp
    | some cs =>
      obtain ⟨u, hu, hun⟩ := h
      rcases List.mem_cons.mp hu with rfl | hu2
      · exact absurd hdec (by rw [hun]; exact fun hx => Option.noConfusion hx)
      · simpa using ih (foldStep acc cs) ⟨u, hu2, hun⟩

lemma runWorker_foldlM_none {α : Type} (content : List Nat) (F : FieldMap → Option α) :
    ∀ (tasks : List (Nat × Nat)) (acc : List α),
      (∃ t ∈ tasks, taskResult content F t = none) →
      tasks.foldlM
          (fun acc t =>
            (taskResult content F t).map
              (fun r =>
                match r with
                | some model => acc ++ [model]
                | none => acc)) acc
        = none := by
  intro tasks
  induction tasks with
  | nil => intro acc h; simp at h
  | cons t ts ih =>
    intro acc h
    rw [List.foldlM_cons]
    cases hres : taskResult content F t with
    | none => simp
    | some r =>
      obtain ⟨u, hu, hun⟩ := h
      rcases List.mem_cons.mp hu with rfl | hu2
      · exact absurd hres (by rw [hun]; exact fun hx => Option.noConfusion hx)
      · cases r with
        | some model => simpa using ih (acc ++ [model]) ⟨u, hu2, hun⟩
        | none => simpa using ih acc ⟨u, hu2, hun⟩

lemma parse_chunk_all_some (chunk : List Nat)
    (h : ∀ l ∈ rustLines chunk, utf8Decode l ≠ none) :
    ∃ r, parse_chunk chunk = some r := by
  unfold parse_chunk
  exact chunkFold_all_some (rustLines chunk) [] h

lemma parse_chunk_line_none (chunk : List Nat)
    (h : ∃ l ∈ rustLines chunk, utf8Decode l = none) :
    parse_chunk chunk = none := by
  unfold parse_chunk
  exact chunkFold_exists_none (rustLines chunk) [] h

/-- Claim C1, evaluated at the failing input.  The input `A: 1\n\nB: 2` has
no terminating blank line.  The scan loop of `Parser::parse` only pushes a
task when a line feed follows a line feed, and nothing flushes the tail
after the loop, so the only task is `(0, 6)` and parse returns a single
Output for `{A: 1}` instead of the two Outputs the claim requires. -/
theorem c1_trailing_block_lost :
    scanChunks (asciiBytes "A: 1\n\nB: 2") = [(0, 6)] ∧
    Parser.parse (asciiBytes "A: 1\n\nB: 2") (fun m => some m) =
      some [[(['A'], ['1'])]] := by
  decide

/-- Claim C2, evaluated at a failing input.  The file `A: 1\n` has length 5
and contains no blank line; the claim requires exactly one ChunkRange
spanning `[0, 5)`, but the scanner emits no range at all, so the emitted
ranges do not cover `[0, file_length)`. -/
theorem c2_no_covering_range :
    scanChunks (asciiBytes "A: 1\n") = [] ∧
    (asciiBytes "A: 1\n").length = 5 := by
  decide

/-- Claim C3, counterexample to the stated form.  A physical line starting
with a tab is not folded: `ChunkWorker::parse_chunk` tests
`starts_with(" ")` only, so for `A: 1\n\tB: 2\n\n` the tab line starts a new
LogicalLine and contributes its own field, instead of producing the single
folded FieldMap `{A: "1\n\tB: 2"}` the claim predicts. -/
theorem c3_tab_line_not_folded :
    Parser.parse (asciiBytes "A: 1\n\tB: 2\n\n") (fun m => some m) =
      some [[(['A'], ['1']), (['B'], ['2'])]] ∧
    Parser.parse (asciiBytes "A: 1\n\tB: 2\n\n") (fun m => some m) ≠
      some [[(['A'], "1\n\tB: 2".toList)]] := by
  decide

/-- Claim C3 as amended: only a leading space (not a tab) marks a
continuation.  Every non-empty physical line that starts with a space, when
the accumulator of LogicalLines is non-empty, is appended to the last
LogicalLine with an inserted line break; and the single-block input
`A: first\n second\n\n` yields the FieldMap `{A: "first\n second"}` with the
embedded break and the continuation's leading space preserved. -/
theorem c3_space_continuation_folded :
    (∀ (fs : List (List Char)) (prev line : List Char),
        startsWithSpace line = true →
        foldStep (fs ++ [prev]) line = fs ++ [prev ++ ('\n' :: line)]) ∧
    Parser.parse (asciiBytes "A: first\n second\n\n") (fun m => some m) =
      some [[(['A'], "first\n second".toList)]] := by
  constructor
  · intro fs prev line h
    cases line with
    | nil => simp [startsWithSpace] at h
    | cons c cs =>
      have hc : c = ' ' := by simpa [startsWithSpace] using h
      subst hc
      have hne : (fs ++ [prev]).isEmpty = false := by
        simp [List.isEmpty_iff]
      simp [foldStep, startsWithSpace, hne, List.dropLast_concat,
        List.getLast?_concat]
  · decide

/-- Witness for C3: folding `" x"` into the one-element accumulator
`["A"]`. -/
theorem c3_space_continuation_folded_witness :
    foldStep ([] ++ [['A']]) [' ', 'x'] = [] ++ [['A'] ++ ('\n' :: [' ', 'x'])] :=
  c3_space_continuation_folded.1 [] ['A'] [' ', 'x'] (by decide)

/-- Claim C4, counterexample to the stated form.  For the line `A::1` the
claim predicts the value `:1` (exactly one leading `:` stripped, the second
`:` kept unescaped), but `trim_start_matches(':')` in
`ChunkWorker::parse_fields` strips the whole leading run of colons, giving
the value `1`. -/
theorem c4_strips_all_leading_colons :
    Parser.parse (asciiBytes "A::1\n\n") (fun m => some m) =
      some [[(['A'], ['1'])]] ∧
    Parser.parse (asciiBytes "A::1\n\n") (fun m => some m) ≠
      some [[(['A'], [':', '1'])]] := by
  decide

/-- Claim C4 as amended: for every LogicalLine containing at least one `:`,
field parsing splits at the first `:` (the returned index holds a colon and
no earlier position does), takes the key as the text before it trimmed, and
takes the value as the text from the delimiter on with its entire leading
run of consecutive `:` characters stripped and then trimmed; `:` characters
after that leading run belong to the value unescaped, as the input
`A: b:c\n\n` shows. -/
theorem c4_first_colon_split :
    (∀ (l : List Char) (i : Nat), firstColon l = some i →
        l.get? i = some ':' ∧ ∀ j : Nat, j < i → l.get? j ≠ some ':') ∧
    (∀ (m : FieldMap) (field : List Char) (i : Nat), firstColon field = some i →
        fieldStep m field =
          insertKV m (trimChars (field.take i))
            (trimChars ((field.drop i).dropWhile (fun c => c == ':')))) ∧
    Parser.parse (asciiBytes "A: b:c\n\n") (fun m => some m) =
      some [[(['A'], ['b', ':', 'c'])]] := by
  refine ⟨firstColon_first, ?_, by decide⟩
  intro m field i h
  simp [fieldStep, h]

/-- Witness for C4: the line `A::1` splits at index 1. -/
theorem c4_first_colon_split_witness :
    fieldStep [] ['A', ':', ':', '1'] =
      insertKV [] (trimChars (['A', ':', ':', '1'].take 1))
        (trimChars ((['A', ':', ':', '1'].drop 1).dropWhile (fun c => c == ':'))) :=
  c4_first_colon_split.2.1 [] ['A', ':', ':', '1'] 1 (by decide)

/-- Claim C5, counterexample to the stated form.  A chunk whose first
physical line starts with a space is not dropped: for ` A: 1\n\n` the line
` A: 1` starts a new LogicalLine (the `else` branch of
`ChunkWorker::parse_chunk`), and field parsing trims the key, so the
resulting FieldMap is `{A: "1"}` rather than the empty map the claim
predicts. -/
theorem c5_first_line_not_dropped :
    Parser.parse (asciiBytes " A: 1\n\n") (fun m => some m) =
      some [[(['A'], ['1'])]] ∧
    Parser.parse (asciiBytes " A: 1\n\n") (fun m => some m) ≠
      some [([] : FieldMap)] := by
  decide

/-- Claim C5 as amended: a chunk whose very first non-empty physical line
starts with whitespace has no predecessor to fold into, and that line starts
a new LogicalLine instead of being dropped; it is then field-parsed like any
other line, so it contributes a (trimmed) entry whenever it contains a `:`,
as ` A: 1\n\n` shows. -/
theorem c5_first_line_new_logical_line :
    (∀ line : List Char, line ≠ [] → foldStep [] line = [line]) ∧
    Parser.parse (asciiBytes " A: 1\n\n") (fun m => some m) =
      some [[(['A'], ['1'])]] := by
  constructor
  · intro line h
    cases line with
    | nil => exact absurd rfl h
    | cons c cs => simp [foldStep]
  · decide

/-- Witness for C5: the space-initial line ` A` starts a new LogicalLine. -/
theorem c5_first_line_new_logical_line_witness :
    foldStep [] [' ', 'A'] = [[' ', 'A']] :=
  c5_first_line_new_logical_line.1 [' ', 'A'] (by decide)

/-- Claim C6: keys in a FieldMap are unique, and a repeated key within one
block is overwritten by the later occurrence; in particular
`A: 1\nA: 2\n\n` yields a FieldMap in which `A` maps to `2`. -/
theorem c6_last_write_wins :
    (∀ fields : List (List Char), ((parse_fields fields).map Prod.fst).Nodup) ∧
    Parser.parse (asciiBytes "A: 1\nA: 2\n\n") (fun m => some m) =
      some [[(['A'], ['2'])]] := by
  constructor
  · intro fields
    exact nodup_keys_foldl fields [] (by simp)
  · decide

/-- Claim C7: a LogicalLine without a `:` is discarded without an entry and
without an error — `fieldStep` returns the map unchanged — and
`A: 1\nstray line\n\n` yields exactly `{A: "1"}`. -/
theorem c7_no_delimiter_skipped :
    (∀ (m : FieldMap) (line : List Char), firstColon line = none →
        fieldStep m line = m) ∧
    Parser.parse (asciiBytes "A: 1\nstray line\n\n") (fun m => some m) =
      some [[(['A'], ['1'])]] := by
  constructor
  · intro m line h
    simp [fieldStep, h]
  · decide

/-- Witness for C7: the delimiter-less line `stray line` leaves the map
untouched. -/
theorem c7_no_delimiter_skipped_witness :
    fieldStep [(['A'], ['1'])] "stray line".toList = [(['A'], ['1'])] :=
  c7_no_delimiter_skipped.1 [(['A'], ['1'])] "stray line".toList (by decide)

/-- Claim C8: `Parser::new` fails with `OpenError` exactly when the file
cannot be opened, fails with `EmptyFileError` exactly when the opened file
has zero length, and succeeds with no further validation on every other
file. -/
theorem c8_construction_validation :
    (∀ openResult : Option (List Nat),
        Parser.new openResult = Except.error NewError.OpenError ↔
          openResult = none) ∧
    (∀ content : List Nat,
        Parser.new (some content) = Except.error NewError.EmptyFileError ↔
          content.length = 0) ∧
    (∀ content : List Nat, content.length ≠ 0 →
        Parser.new (some content) = Except.ok content) := by
  refine ⟨?_, ?_, ?_⟩
  · intro openResult
    cases openResult with
    | none => simp [Parser.new]
    | some content =>
      simp only [Parser.new]
      split <;> simp
  · intro content
    simp only [Parser.new]
    split <;> simp_all
  · intro content h
    simp [Parser.new, h]

/-- Witness for C8: a one-byte file is accepted, a failed open reports
`OpenError`, an empty file reports `EmptyFileError`. -/
theorem c8_construction_validation_witness :
    Parser.new (some [65]) = Except.ok [65] ∧
    Parser.new none = Except.error NewError.OpenError ∧
    Parser.new (some []) = Except.error NewError.EmptyFileError :=
  ⟨c8_construction_validation.2.2 [65] (by decide),
   (c8_construction_validation.1 none).mpr rfl,
   (c8_construction_validation.2.1 []).mpr rfl⟩

/-- Claim C9: for any worker counts, two runs of parse on the same file
yield the same multiset of Outputs.  Any two schedules — lists of per-worker
task lists whose concatenations are permutations of the pushed task list —
produce merged ResultLists that are equal as multisets (order may differ),
provided no chunk panics. -/
theorem c9_schedule_determinism {α : Type} (content : List Nat)
    (F : FieldMap → Option α) (a1 a2 : List (List (Nat × Nat)))
    (h1 : a1.flatten.Perm (scanChunks content))
    (h2 : a2.flatten.Perm (scanChunks content))
    (hok : ∀ t ∈ scanChunks content, taskResult content F t ≠ none) :
    ∃ r1 r2, mergedParse content F a1 = some r1 ∧
      mergedParse content F a2 = some r2 ∧
      (r1 : Multiset α) = (r2 : Multiset α) := by
  have e1 : mergedParse content F a1 =
      some (a1.flatten.filterMap (taskModel content F)) := by
    refine mergedParse_eq_filterMap content F a1 ?_
    intro tasks hts t ht
    exact hok t (h1.subset (List.mem_flatten.mpr ⟨tasks, hts, ht⟩))
  have e2 : mergedParse content F a2 =
      some (a2.flatten.filterMap (taskModel content F)) := by
    refine mergedParse_eq_filterMap content F a2 ?_
    intro tasks hts t ht
    exact hok t (h2.subset (List.mem_flatten.mpr ⟨tasks, hts, ht⟩))
  refine ⟨_, _, e1, e2, ?_⟩
  exact Multiset.coe_eq_coe.mpr
    ((h1.filterMap (taskModel content F)).trans
      (h2.filterMap (taskModel content F)).symm)

/-- Witness for C9: the file `A: 1\n\nB: 2\n\n` parsed by one worker taking
both chunks, and by three workers (one idle) taking them in the opposite
order, gives the same multiset of FieldMaps. -/
theorem c9_schedule_determinism_witness :
    ∃ r1 r2,
      mergedParse (asciiBytes "A: 1\n\nB: 2\n\n") (fun m => some m)
          [[(0, 6), (6, 12)]] = some r1 ∧
      mergedParse (asciiBytes "A: 1\n\nB: 2\n\n") (fun m => some m)
          [[(6, 12)], [], [(0, 6)]] = some r2 ∧
      (r1 : Multiset FieldMap) = (r2 : Multiset FieldMap) :=
  c9_schedule_determinism (asciiBytes "A: 1\n\nB: 2\n\n") (fun m => some m)
    [[(0, 6), (6, 12)]] [[(6, 12)], [], [(0, 6)]]
    (by decide) (by decide) (by decide)

/-- Claim C10: the per-line result is unconditionally unwrapped, so whenever
some enqueued chunk has a line whose bytes are not valid UTF-8 the worker
panics and the whole parse call aborts (`none`); parse returning a
ResultList (`some`, never an error) is guaranteed exactly under the
precondition that every line of every enqueued chunk decodes as UTF-8. -/
theorem c10_utf8_panic {α : Type} (F : FieldMap → Option α)
    (content : List Nat) :
    ((∀ t ∈ scanChunks content, ∀ l ∈ rustLines (chunkSlice content t),
        utf8Decode l ≠ none) →
      ∃ r, Parser.parse content F = some r) ∧
    ((∃ t ∈ scanChunks content, ∃ l ∈ rustLines (chunkSlice content t),
        utf8Decode l = none) →
      Parser.parse content F = none) := by
  constructor
  · intro h
    have hok : ∀ t ∈ scanChunks content, taskResult content F t ≠ none := by
      intro t ht
      obtain ⟨r, hr⟩ := parse_chunk_all_some (chunkSlice content t) (h t ht)
      simp [taskResult, hr]
    exact ⟨_, runWorker_eq_filterMap content F (scanChunks content) hok⟩
  · intro h
    obtain ⟨t, ht, hline⟩ := h
    have hchunk : parse_chunk (chunkSlice content t) = none :=
      parse_chunk_line_none (chunkSlice content t) hline
    have htask : taskResult content F t = none := by
      simp [taskResult, hchunk]
    unfold Parser.parse runWorker
    exact runWorker_foldlM_none content F (scanChunks content) [] ⟨t, ht, htask⟩

/-- Witness for C10: the file `FF 0A 0A` enqueues the chunk `[255, 10, 10]`
whose first line `[255]` is not valid UTF-8, so parse aborts; the valid file
`A: 1\n\n` parses to a ResultList. -/
theorem c10_utf8_panic_witness :
    Parser.parse [255, 10, 10] (fun m => (some m : Option FieldMap)) = none ∧
    ∃ r, Parser.parse (asciiBytes "A: 1\n\n")
        (fun m => (some m : Option FieldMap)) = some r :=
  ⟨(c10_utf8_panic (fun m => (some m : Option FieldMap)) [255, 10, 10]).2
      (by decide),
   (c10_utf8_panic (fun m => (some m : Option FieldMap))
      (asciiBytes "A: 1\n\n")).1 (by decide)⟩
